import Mathlib

/-!
Verification of the candle synchronization engine of the swaption-test
repository (`src/components/BTCRealtimeChart.tsx` and the unnamed variant
`src/unnamed/part_005`) against its natural-language specification.

The TypeScript source is shallowly embedded:
* JavaScript numbers that can be non-finite (results of `parseFloat` /
  `Number(...)`) are modelled by `JSNum` (a rational, NaN, or an infinity);
  timestamps, which in the source are always integer epoch values, are
  modelled by `Int`.
* A JavaScript `Map` keyed by `time` is modelled by a list of candles with
  `Map.set` semantics (`insertBar`): setting an existing key overwrites the
  stored value in place, setting a fresh key appends.
* `Array.prototype.sort` with comparator `(a, b) => a.time - b.time` (a
  stable sort by `time`) is modelled by `List.insertionSort` on `a.time ≤
  b.time`, which is likewise stable.
* I/O (fetch results, WebSocket events, `localStorage`) is modelled by
  explicit outcome types and explicit state passing; a JavaScript exception
  is modelled by `Except.error`, and a `try { ... } catch { ... }` by a
  match on the body's `Except` result.
-/

/-- A JavaScript number as produced by `parseFloat` / `Number(...)`:
either a finite value (modelled as a rational) or one of the non-finite
values `NaN`, `Infinity`, `-Infinity`. -/
inductive JSNum where
  | num (q : ℚ)
  | nan
  | inf
  | negInf
deriving DecidableEq

/-- JavaScript `Number.isFinite` / global `isFinite` on a parsed number. -/
def JSNum.isFinite : JSNum → Bool
  | .num _ => true
  | _ => false

/-- JavaScript `<=` on numbers: any comparison involving NaN is false. -/
def JSNum.jsle : JSNum → JSNum → Bool
  | .nan, _ => false
  | _, .nan => false
  | .negInf, _ => true
  | _, .negInf => false
  | .num a, .num b => decide (a ≤ b)
  | .num _, .inf => true
  | .inf, .inf => true
  | .inf, .num _ => false

/-- The `CandleData` record of the source: `time` is a `UTCTimestamp`
(integer seconds since epoch), the four prices are JavaScript numbers. -/
structure Candle where
  time : Int
  open_ : JSNum
  high : JSNum
  low : JSNum
  close : JSNum
deriving DecidableEq

/-- Whether the map-of-bars already has an entry for time `t`
(`Map.has` semantics on the `time` key). -/
def keyMem (l : List Candle) (t : Int) : Bool :=
  l.any (fun c => c.time == t)

/-- One `uniqueBars.set(bar.time, bar)` step of `mergeBars`: a JS `Map.set`
overwrites the value of an existing key in place and appends a fresh key. -/
def insertBar (acc : List Candle) (b : Candle) : List Candle :=
  if keyMem acc b.time then acc.map (fun c => if c.time == b.time then b else c)
  else acc ++ [b]

/-- The `allBars.forEach(bar => uniqueBars.set(bar.time, bar))` loop of
`mergeBars` followed by `Array.from(uniqueBars.values())`. -/
def dedupByTime (l : List Candle) : List Candle :=
  l.foldl insertBar []

/-- Comparator order of `.sort((a, b) => a.time - b.time)`. -/
def timeLE (a b : Candle) : Prop := a.time ≤ b.time

/-- Strict version of `timeLE`; two candles in this relation have
distinct times. -/
def timeLT (a b : Candle) : Prop := a.time < b.time

instance : DecidableRel timeLE := fun a b => inferInstanceAs (Decidable (a.time ≤ b.time))

instance : IsTotal Candle timeLE := ⟨fun a b => Int.le_total a.time b.time⟩

instance : IsTrans Candle timeLE := ⟨fun _ _ _ h₁ h₂ => le_trans h₁ h₂⟩

instance : IsAntisymm Candle timeLT :=
  ⟨fun a _ h₁ h₂ => absurd (lt_trans h₁ h₂) (lt_irrefl a.time)⟩

/-- `.sort((a, b) => a.time - b.time)`: a stable ascending sort by `time`. -/
def sortByTime (l : List Candle) : List Candle :=
  l.insertionSort timeLE

/-- `mergeBars(newBars, existingBars)` from `BTCRealtimeChart.tsx` (lines
38–47) and `part_005` (lines 151–160): concatenate `[...newBars,
...existingBars]`, deduplicate through a `Map` keyed by `time` (a later
`set` for the same key overwrites an earlier one), and sort ascending by
`time`. -/
def mergeBars (newBars existingBars : List Candle) : List Candle :=
  sortByTime (dedupByTime (newBars ++ existingBars))

/-! ### Basic properties of the map-based deduplication -/

theorem keyMem_iff {l : List Candle} {t : Int} :
    keyMem l t = true ↔ ∃ c ∈ l, c.time = t := by
  simp [keyMem, List.any_eq_true]

theorem keyMem_eq_false_iff {l : List Candle} {t : Int} :
    keyMem l t = false ↔ ∀ c ∈ l, c.time ≠ t := by
  simp [keyMem, List.any_eq_false]

theorem times_insertBar_of_keyMem {acc : List Candle} {b : Candle}
    (h : keyMem acc b.time = true) :
    (insertBar acc b).map Candle.time = acc.map Candle.time := by
  simp only [insertBar, h, if_true, List.map_map]
  apply List.map_congr_left
  intro c _
  by_cases hc : c.time = b.time
  · simp [Function.comp, hc]
  · simp [Function.comp, hc]

theorem insertBar_of_not_keyMem {acc : List Candle} {b : Candle}
    (h : keyMem acc b.time = false) :
    insertBar acc b = acc ++ [b] := by
  simp [insertBar, h]

theorem timesNodup_insertBar {acc : List Candle} (b : Candle)
    (h : (acc.map Candle.time).Nodup) :
    ((insertBar acc b).map Candle.time).Nodup := by
  cases hk : keyMem acc b.time with
  | true => rw [times_insertBar_of_keyMem hk]; exact h
  | false =>
      rw [insertBar_of_not_keyMem hk]
      rw [List.map_append]
      rw [List.nodup_append]
      refine ⟨h, List.nodup_singleton _, ?_⟩
      intro t ht
      simp only [List.map_cons, List.map_nil, List.mem_singleton]
      intro heq
      rw [List.mem_map] at ht
      obtain ⟨c, hc, hct⟩ := ht
      exact (keyMem_eq_false_iff.mp hk c hc) (by rw [hct, heq])

theorem timesNodup_foldl_insertBar (l : List Candle) :
    ∀ acc : List Candle, (acc.map Candle.time).Nodup →
      ((l.foldl insertBar acc).map Candle.time).Nodup := by
  induction l with
  | nil => intro acc h; exact h
  | cons b tl ih => intro acc h; exact ih _ (timesNodup_insertBar b h)

theorem timesNodup_dedupByTime (l : List Candle) :
    ((dedupByTime l).map Candle.time).Nodup :=
  timesNodup_foldl_insertBar l [] (by simp)

theorem keyMem_insertBar (acc : List Candle) (b : Candle) (t : Int) :
    keyMem (insertBar acc b) t = (keyMem acc t || (b.time == t)) := by
  cases hk : keyMem acc b.time with
  | true =>
      have hmem : keyMem (insertBar acc b) t = keyMem acc t := by
        cases ht : keyMem acc t with
        | true =>
            rw [keyMem_iff] at ht ⊢
            obtain ⟨c, hc, hct⟩ := ht
            by_cases hcb : c.time = b.time
            · refine ⟨b, ?_, by rw [← hcb, hct]⟩
              simp only [insertBar, hk, if_true, List.mem_map]
              exact ⟨c, hc, by simp [hcb]⟩
            · refine ⟨c, ?_, hct⟩
              simp only [insertBar, hk, if_true, List.mem_map]
              exact ⟨c, hc, by simp [hcb]⟩
        | false =>
            rw [keyMem_eq_false_iff] at ht ⊢
            intro c hc
            simp only [insertBar, hk, if_true, List.mem_map] at hc
            obtain ⟨c', hc', hcc⟩ := hc
            by_cases hcb : c'.time = b.time
            · have : c = b := by
                have := hcc
                simpa [hcb] using this.symm
              subst this
              rw [← hcb]
              exact ht c' hc'
            · have : c = c' := by simpa [hcb] using hcc.symm
              subst this
              exact ht c hc'
      rw [hmem]
      cases hbt : (b.time == t) with
      | true =>
          have : b.time = t := by simpa using hbt
          subst this
          simp [hk]
      | false => simp
  | false =>
      rw [insertBar_of_not_keyMem hk]
      simp [keyMem, List.any_append]

theorem keyMem_foldl_insertBar (l : List Candle) :
    ∀ (acc : List Candle) (t : Int),
      keyMem (l.foldl insertBar acc) t = (keyMem acc t || keyMem l t) := by
  induction l with
  | nil => intro acc t; simp [keyMem]
  | cons b tl ih =>
      intro acc t
      simp only [List.foldl_cons]
      rw [ih (insertBar acc b) t, keyMem_insertBar]
      simp [keyMem, Bool.or_assoc]

theorem keyMem_dedupByTime (l : List Candle) (t : Int) :
    keyMem (dedupByTime l) t = keyMem l t := by
  have := keyMem_foldl_insertBar l [] t
  simpa [dedupByTime, keyMem] using this

/-- The candle that a `Map` built from `l` by successive `set` calls holds
at key `t`: the last occurrence of key `t` in `l`. -/
def lastOcc (l : List Candle) (t : Int) : Option Candle :=
  l.reverse.find? (fun c => c.time == t)

theorem lastOcc_nil (t : Int) : lastOcc [] t = none := rfl

theorem lastOcc_concat (l : List Candle) (b : Candle) (t : Int) :
    lastOcc (l ++ [b]) t = if b.time = t then some b else lastOcc l t := by
  simp only [lastOcc, List.reverse_append, List.reverse_cons, List.reverse_nil,
    List.nil_append, List.cons_append, List.nil_append]
  by_cases hb : b.time = t
  · rw [List.find?_cons_of_pos _ (by simpa using hb), if_pos hb]
  · rw [List.find?_cons_of_neg _ (by simpa using hb), if_neg hb]

theorem lastOcc_isSome_iff {l : List Candle} {t : Int} :
    (∃ c, lastOcc l t = some c) ↔ keyMem l t = true := by
  constructor
  · rintro ⟨c, hc⟩
    have hmem := List.mem_of_find?_eq_some hc
    have hp := List.find?_some hc
    rw [keyMem_iff]
    exact ⟨c, by simpa using hmem, by simpa using hp⟩
  · intro h
    rw [keyMem_iff] at h
    obtain ⟨c, hc, hct⟩ := h
    have : (l.reverse.find? (fun c => c.time == t)).isSome := by
      rw [List.find?_isSome]
      exact ⟨c, by simpa using hc, by simpa using hct⟩
    obtain ⟨c', hc'⟩ := Option.isSome_iff_exists.mp this
    exact ⟨c', hc'⟩

theorem lastOcc_eq_none_iff {l : List Candle} {t : Int} :
    lastOcc l t = none ↔ keyMem l t = false := by
  constructor
  · intro h
    cases hk : keyMem l t with
    | false => rfl
    | true =>
        obtain ⟨c, hc⟩ := lastOcc_isSome_iff.mpr hk
        rw [h] at hc
        exact absurd hc (by simp)
  · intro h
    cases ho : lastOcc l t with
    | none => rfl
    | some c =>
        have := lastOcc_isSome_iff.mp ⟨c, ho⟩
        rw [h] at this
        exact absurd this (by simp)

theorem lastOcc_mem {l : List Candle} {t : Int} {c : Candle}
    (h : lastOcc l t = some c) : c ∈ l ∧ c.time = t := by
  have hmem := List.mem_of_find?_eq_some h
  have hp := List.find?_some h
  exact ⟨by simpa using hmem, by simpa using hp⟩

theorem lastOcc_append (l₁ l₂ : List Candle) (t : Int) :
    lastOcc (l₁ ++ l₂) t =
      match lastOcc l₂ t with
      | some c => some c
      | none => lastOcc l₁ t := by
  simp only [lastOcc, List.reverse_append, List.find?_append]
  cases l₂.reverse.find? (fun c => c.time == t) with
  | none => simp [Option.or]
  | some c => simp [Option.or]

theorem dedupByTime_concat (l : List Candle) (b : Candle) :
    dedupByTime (l ++ [b]) = insertBar (dedupByTime l) b := by
  simp [dedupByTime, List.foldl_append]

theorem mem_dedupByTime (l : List Candle) :
    ∀ c : Candle, c ∈ dedupByTime l ↔ lastOcc l c.time = some c := by
  induction l using List.reverseRecOn with
  | nil => intro c; simp [dedupByTime, lastOcc_nil]
  | append_singleton l b ih =>
      intro c
      rw [dedupByTime_concat, lastOcc_concat]
      by_cases hcb : c.time = b.time
      · rw [if_pos hcb.symm]
        cases hk : keyMem (dedupByTime l) b.time with
        | true =>
            simp only [insertBar, hk, if_true, List.mem_map]
            constructor
            · rintro ⟨c', _, hc'⟩
              by_cases h' : c'.time = b.time
              · rw [if_pos (by simpa using h')] at hc'
                rw [← hc']
              · rw [if_neg (by simpa using h')] at hc'
                rw [← hc'] at hcb
                exact absurd hcb h'
            · intro hc
              have hc' : c = b := by injection hc with h; exact h.symm
              obtain ⟨c', hc'mem, hc'time⟩ := keyMem_iff.mp hk
              refine ⟨c', hc'mem, ?_⟩
              rw [if_pos (by simpa using hc'time), hc']
        | false =>
            rw [insertBar_of_not_keyMem hk]
            simp only [List.mem_append, List.mem_singleton]
            constructor
            · intro hc
              cases hc with
              | inl hc =>
                  have : keyMem (dedupByTime l) c.time = true :=
                    keyMem_iff.mpr ⟨c, hc, rfl⟩
                  rw [hcb] at this
                  rw [hk] at this
                  exact absurd this (by simp)
              | inr hc => rw [hc]
            · intro hc
              have : c = b := by injection hc with h; exact h.symm
              exact Or.inr this
      · rw [if_neg (fun h => hcb h.symm)]
        cases hk : keyMem (dedupByTime l) b.time with
        | true =>
            simp only [insertBar, hk, if_true, List.mem_map]
            rw [← ih c]
            constructor
            · rintro ⟨c', hc'mem, hc'⟩
              by_cases h' : c'.time = b.time
              · rw [if_pos (by simpa using h')] at hc'
                rw [← hc'] at hcb
                exact absurd rfl hcb
              · rw [if_neg (by simpa using h')] at hc'
                rw [← hc']
                exact hc'mem
            · intro hc
              refine ⟨c, hc, ?_⟩
              rw [if_neg (by simpa using hcb)]
        | false =>
            rw [insertBar_of_not_keyMem hk]
            simp only [List.mem_append, List.mem_singleton]
            rw [← ih c]
            constructor
            · intro hc
              cases hc with
              | inl hc => exact hc
              | inr hc => rw [hc] at hcb; exact absurd rfl hcb
            · exact Or.inl

/-! ### Properties of the sorted merge result -/

theorem perm_sortByTime (l : List Candle) : List.Perm (sortByTime l) l :=
  List.perm_insertionSort timeLE l

theorem sorted_le_sortByTime (l : List Candle) : (sortByTime l).Sorted timeLE :=
  List.sorted_insertionSort timeLE l

theorem sorted_lt_of_sorted_le {l : List Candle}
    (hs : l.Sorted timeLE) (hn : (l.map Candle.time).Nodup) :
    l.Sorted timeLT := by
  have hne : l.Pairwise (fun a b : Candle => a.time ≠ b.time) := by
    rw [List.Nodup] at hn
    exact (List.pairwise_map).mp hn
  have := hs.and hne
  exact this.imp (fun h => lt_of_le_of_ne h.1 h.2)

theorem timesNodup_mergeBars (n e : List Candle) :
    ((mergeBars n e).map Candle.time).Nodup := by
  have hperm : List.Perm ((mergeBars n e).map Candle.time)
      ((dedupByTime (n ++ e)).map Candle.time) :=
    (perm_sortByTime (dedupByTime (n ++ e))).map Candle.time
  exact hperm.nodup_iff.mpr (timesNodup_dedupByTime (n ++ e))

theorem sorted_le_mergeBars (n e : List Candle) : (mergeBars n e).Sorted timeLE :=
  sorted_le_sortByTime _

theorem sorted_lt_mergeBars (n e : List Candle) : (mergeBars n e).Sorted timeLT :=
  sorted_lt_of_sorted_le (sorted_le_mergeBars n e) (timesNodup_mergeBars n e)

theorem mem_mergeBars {n e : List Candle} {c : Candle} :
    c ∈ mergeBars n e ↔ lastOcc (n ++ e) c.time = some c :=
  ((perm_sortByTime (dedupByTime (n ++ e))).mem_iff).trans (mem_dedupByTime (n ++ e) c)

theorem keyMem_mergeBars (n e : List Candle) (t : Int) :
    keyMem (mergeBars n e) t = keyMem (n ++ e) t := by
  have h1 : keyMem (mergeBars n e) t = true ↔ keyMem (dedupByTime (n ++ e)) t = true := by
    rw [keyMem_iff, keyMem_iff]
    constructor
    · rintro ⟨c, hc, hct⟩
      exact ⟨c, (perm_sortByTime _).mem_iff.mp hc, hct⟩
    · rintro ⟨c, hc, hct⟩
      exact ⟨c, (perm_sortByTime _).mem_iff.mpr hc, hct⟩
  have h2 := keyMem_dedupByTime (n ++ e) t
  cases hk : keyMem (n ++ e) t with
  | true => exact (h1.mpr (h2.trans hk))
  | false =>
      cases hm : keyMem (mergeBars n e) t with
      | false => rfl
      | true =>
          have := h1.mp hm
          rw [h2, hk] at this
          exact absurd this (by simp)

/-- On a list whose times are pairwise distinct, the map stores the unique
candle with the given time. -/
theorem lastOcc_of_timesNodup {l : List Candle}
    (hn : (l.map Candle.time).Nodup) {c : Candle} {t : Int} :
    lastOcc l t = some c ↔ c ∈ l ∧ c.time = t := by
  constructor
  · exact lastOcc_mem
  · rintro ⟨hc, hct⟩
    cases ho : lastOcc l t with
    | none =>
        have hk := lastOcc_eq_none_iff.mp ho
        exact absurd hct (keyMem_eq_false_iff.mp hk c hc)
    | some c' =>
        obtain ⟨hc'mem, hc't⟩ := lastOcc_mem ho
        have heq : Candle.time c = Candle.time c' := hct.trans hc't.symm
        have hcc : c = c' := List.inj_on_of_nodup_map hn hc hc'mem heq
        rw [hcc]

theorem keyMem_append (l₁ l₂ : List Candle) (t : Int) :
    keyMem (l₁ ++ l₂) t = (keyMem l₁ t || keyMem l₂ t) := by
  simp [keyMem, List.any_append]

/-! ### Claim theorems about the merge policy -/

/-- The two concrete candles of the last-write-wins scenario in the spec:
a stored candle with close 10 and an incoming candle with close 20 at the
same `time = 100`. -/
def lwwOld : Candle := ⟨100, .num 10, .num 10, .num 10, .num 10⟩

/-- Incoming candle of the last-write-wins scenario (close 20, time 100). -/
def lwwNew : Candle := ⟨100, .num 20, .num 20, .num 20, .num 20⟩

/-- C1. The claim states last-write-wins with the incoming candle winning:
merging `{time:100, close:10}` and then merging `{time:100, close:20}`
should yield `close:20` at `time:100`. Evaluating `mergeBars` at exactly
that input shows the opposite: because `mergeBars` spreads
`[...newBars, ...existingBars]` and a later `Map.set` overwrites an
earlier one, the EXISTING candle (close 10) survives the collision and the
incoming candle (close 20) is discarded. -/
theorem mergeBars_existing_candle_wins_at_time100 :
    mergeBars [lwwNew] (mergeBars [lwwOld] []) = [lwwOld] ∧
    lwwOld.close = JSNum.num 10 ∧ lwwNew.close = JSNum.num 20 ∧
    lwwOld.time = 100 ∧ lwwNew.time = 100 := by
  refine ⟨by decide, rfl, rfl, rfl, rfl⟩

/-- C2. Ordering invariant: for every pair of input candle lists (in any
order, possibly with duplicate time values), `mergeBars` returns a series
strictly increasing by `time` with no two candles sharing a `time`; hence
after any sequence of merges the series is strictly increasing by `time`
with unique times. -/
theorem mergeBars_ordering_invariant :
    (∀ n e : List Candle,
        (mergeBars n e).Sorted timeLT ∧ ((mergeBars n e).map Candle.time).Nodup) ∧
    (∀ (updates : List (List Candle)) (n e : List Candle),
        (updates.foldl (fun acc u => mergeBars u acc) (mergeBars n e)).Sorted timeLT) := by
  constructor
  · intro n e
    exact ⟨sorted_lt_mergeBars n e, timesNodup_mergeBars n e⟩
  · intro updates
    induction updates with
    | nil => intro n e; exact sorted_lt_mergeBars n e
    | cons u rest ih =>
        intro n e
        simp only [List.foldl_cons]
        exact ih u (mergeBars n e)

/-- C3. Merge idempotence: for every series `S` and update `U`, merging
`U` a second time leaves the result of the first merge unchanged:
`merge(merge(S,U), U) = merge(S,U)`, where `merge(S,U)` is the source call
`mergeBars(U, S)` (update as `newBars`, series as `existingBars`). -/
theorem mergeBars_idempotent :
    ∀ s u : List Candle, mergeBars u (mergeBars u s) = mergeBars u s := by
  intro s u
  have hsorted1 : (mergeBars u (mergeBars u s)).Sorted timeLT :=
    sorted_lt_mergeBars u (mergeBars u s)
  have hsorted2 : (mergeBars u s).Sorted timeLT := sorted_lt_mergeBars u s
  have hnd1 : (mergeBars u (mergeBars u s)).Nodup :=
    List.Nodup.of_map Candle.time (timesNodup_mergeBars u (mergeBars u s))
  have hnd2 : (mergeBars u s).Nodup :=
    List.Nodup.of_map Candle.time (timesNodup_mergeBars u s)
  apply List.eq_of_perm_of_sorted ?_ hsorted1 hsorted2
  rw [List.perm_ext_iff_of_nodup hnd1 hnd2]
  intro c
  rw [mem_mergeBars, lastOcc_append]
  cases ho : lastOcc (mergeBars u s) c.time with
  | some x =>
      simp only
      have hx := (lastOcc_of_timesNodup (timesNodup_mergeBars u s)).mp ho
      constructor
      · intro h
        have hxc : x = c := by injection h
        rw [← hxc]
        exact hx.1
      · intro hcM
        have : lastOcc (mergeBars u s) c.time = some c :=
          (lastOcc_of_timesNodup (timesNodup_mergeBars u s)).mpr ⟨hcM, rfl⟩
        rw [ho] at this
        exact this
  | none =>
      simp only
      have hkM : keyMem (mergeBars u s) c.time = false := lastOcc_eq_none_iff.mp ho
      rw [keyMem_mergeBars, keyMem_append] at hkM
      constructor
      · intro h
        obtain ⟨hcu, _⟩ := lastOcc_mem h
        have hku : keyMem u c.time = true := keyMem_iff.mpr ⟨c, hcu, rfl⟩
        rw [hku] at hkM
        exact absurd hkM (by simp)
      · intro hcM
        have : keyMem (mergeBars u s) c.time = true := keyMem_iff.mpr ⟨c, hcM, rfl⟩
        rw [keyMem_mergeBars, keyMem_append] at this
        rw [this] at hkM
        exact absurd hkM (by simp)

/-! ### History fetch and record validation -/

/-- One raw Binance kline row as consumed by the fetch code: `row[0]` is
the integer epoch-millisecond open time, and the price fields `row[1]` …
`row[4]` are modelled by the values that `parseFloat` / `Number(...)`
produce for them (possibly NaN or an infinity for malformed strings). -/
structure KlineRow where
  openTime : Int
  o : JSNum
  h : JSNum
  l : JSNum
  c : JSNum
deriving DecidableEq

/-- `normalizeCandle` from `part_005` (lines 76–103): compute
`time = Math.floor(openTime / 1000)` and return `null` when any price is
non-finite or `time <= 0`, otherwise the candle. -/
def normalizeCandle (k : KlineRow) : Option Candle :=
  let time := Int.fdiv k.openTime 1000
  if !k.o.isFinite || !k.h.isFinite || !k.l.isFinite || !k.c.isFinite || decide (time ≤ 0)
  then none
  else some ⟨time, k.o, k.h, k.l, k.c⟩

/-- The kline-to-candle mapping inside `fetchBinanceCandles`
(`BTCRealtimeChart.tsx` lines 359–364): `time = Math.floor(Number(k[0]) /
1000)` and the four `Number(...)` prices, with no validity check. -/
def klineToCandle (k : KlineRow) : Candle :=
  ⟨Int.fdiv k.openTime 1000, k.o, k.h, k.l, k.c⟩

/-- The finiteness filter of `fetchBinanceCandles` (line 365):
`Number.isFinite` on all four prices. The `time` field is not checked. -/
def finiteOHLC (c : Candle) : Bool :=
  c.open_.isFinite && c.high.isFinite && c.low.isFinite && c.close.isFinite

/-- The `validBars` filter applied in `loadInitialData` (lines 405–417),
`loadMoreHistory`, `loadMoreRecentData` and the period-change effect:
`typeof` checks (always true for parsed numbers), `time > 0`, and
`isFinite` on all four prices. -/
def validBar (c : Candle) : Bool :=
  decide (0 < c.time) && finiteOHLC c

/-- Outcome of one REST history request, as observed by the fetch code:
the request may reject (network error or timeout), return a non-2xx
response, return a JSON body that is not an array, or return an array of
kline rows. -/
inductive FetchOutcome where
  | networkError
  | timeout
  | httpNotOk
  | nonArray
  | rows (data : List KlineRow)

/-- The body of the `try` block of `fetchBinanceCandles`
(`BTCRealtimeChart.tsx` lines 342–372): a rejected `fetch` propagates as
an exception (`Except.error`); a non-ok response and a non-array body
return `[]`; an array is mapped to candles and filtered by `finiteOHLC`
only. -/
def fetchBinanceCandlesTry : FetchOutcome → Except Unit (List Candle)
  | .networkError => .error ()
  | .timeout => .error ()
  | .httpNotOk => .ok []
  | .nonArray => .ok []
  | .rows data => .ok ((data.map klineToCandle).filter finiteOHLC)

/-- What a caller of `fetchBinanceCandles` observes: the `catch` block
(lines 368–371) turns every exception into the empty list, so the promise
always resolves. -/
def fetchBinanceCandlesObs (o : FetchOutcome) : Except Unit (List Candle) :=
  match fetchBinanceCandlesTry o with
  | .ok bars => .ok bars
  | .error _ => .ok []

/-- The candle list `fetchBinanceCandles` resolves to. -/
def fetchBinanceCandles (o : FetchOutcome) : List Candle :=
  match fetchBinanceCandlesObs o with
  | .ok bars => bars
  | .error _ => []

/-- `fetchHistory` from `part_005` (lines 119–149): a non-ok response
throws (`throw new Error`), a non-array body makes `data.map` throw, both
are caught and become `[]`; an array of rows is passed through
`normalizeCandle` and `null` results are filtered out. -/
def fetchHistoryTry : FetchOutcome → Except Unit (List Candle)
  | .networkError => .error ()
  | .timeout => .error ()
  | .httpNotOk => .error ()
  | .nonArray => .error ()
  | .rows data => .ok (data.filterMap normalizeCandle)

/-- The candle list `fetchHistory` (`part_005`) resolves to. -/
def fetchHistory (o : FetchOutcome) : List Candle :=
  match fetchHistoryTry o with
  | .ok bars => bars
  | .error _ => []

/-- `loadInitialData` (`BTCRealtimeChart.tsx` lines 380–452) reduced to
its data flow: `bars` is the cached list if non-empty, otherwise the
fetched list. The function internally computes `validBars = bars.filter
validBar` (lines 405–417) but RETURNS the unfiltered `bars` (line 451),
and the loading effect (lines 849–869) stores that returned value with
`setCandleHistory(bars)`. First component: the returned (and stored)
list; second component: the internally validated list. -/
def loadInitialData (cached fetched : List Candle) : List Candle × List Candle :=
  let bars := if cached.isEmpty then fetched else cached
  (bars, bars.filter validBar)

/-! ### SideSwap daily-candle fetch (JSON-RPC over WebSocket) -/

/-- One row of a SideSwap `chart_sub` response: `time` is a date string,
modelled by the epoch-second value `tsSec` that
`Math.floor(new Date(d.time + "T00:00:00Z").getTime() / 1000)` computes
for it; the prices are the `Number(...)` results. -/
structure SideSwapRow where
  tsSec : Int
  o : JSNum
  h : JSNum
  l : JSNum
  c : JSNum
deriving DecidableEq

/-- The candle built from a SideSwap row (`BTCRealtimeChart.tsx` lines
202–210); note that no validity filter is applied here. -/
def sideswapRowToCandle (r : SideSwapRow) : Candle :=
  ⟨r.tsSec, r.o, r.h, r.l, r.c⟩

/-- Outcome of one `doRequest` WebSocket round trip: the 5-second response
timeout fires, the socket errors, the constructor throws, the server
answers "can't find market", the payload has no data array, or it carries
a list of rows. -/
inductive WsOutcome where
  | timeout
  | wsError
  | connectError
  | marketNotFound
  | badPayload
  | chartData (rows : List SideSwapRow)

/-- `doRequest` from `fetchSideSwapDailyCandles` (`BTCRealtimeChart.tsx`
lines 144–234): every failure path — the 5000 ms timeout, `onerror`, a
thrown constructor, a "can't find market" error reply, a payload without
a data array — resolves the promise with `[]`; a data payload is mapped
to candles and sorted by time. The promise always resolves, never
rejects. -/
def doRequest : WsOutcome → List Candle
  | .chartData rows => sortByTime (rows.map sideswapRowToCandle)
  | _ => []

/-- The inter-attempt backoff of `fetchSideSwapDailyCandles` (line 140):
`Math.min(4000, 500 * Math.pow(2, attempt))`. -/
def sideswapBackoffMs (attempt : Nat) : Nat :=
  min 4000 (500 * 2 ^ attempt)

/-- Accumulated result of the SideSwap attempt loop: the candles finally
returned, the backoff delays awaited after failed attempts, and the
number of WebSocket requests issued. -/
structure SideSwapRun where
  candles : List Candle
  delays : List Nat
  requests : Nat
deriving DecidableEq

/-- The attempt loop of `fetchSideSwapDailyCandles` (lines 236–268): per
attempt, issue the request for the configured pair; if it yields candles
return them; otherwise issue the request for the swapped pair; if it
yields candles return them; otherwise await the backoff for this attempt
index and retry. `env i` is the outcome of the `i`-th WebSocket request
issued. (The attempt-0 market resolution only changes which asset pair is
placed in the request, not the control flow, and is not modelled.) -/
def runAttempts (env : Nat → WsOutcome) : Nat → Nat → Nat → SideSwapRun
  | _, _, 0 => ⟨[], [], 0⟩
  | attempt, reqIdx, fuel + 1 =>
      let primary := doRequest (env reqIdx)
      if primary.length > 0 then ⟨primary, [], 1⟩
      else
        let swapped := doRequest (env (reqIdx + 1))
        if swapped.length > 0 then ⟨swapped, [], 2⟩
        else
          let rest := runAttempts env (attempt + 1) (reqIdx + 2) fuel
          ⟨rest.candles, sideswapBackoffMs attempt :: rest.delays, 2 + rest.requests⟩

/-- `fetchSideSwapDailyCandles` (lines 136–269): the attempt loop run
with `maxAttempts = 5`, starting at attempt 0; when every attempt fails
it falls through to `return []`. -/
def fetchSideSwapDailyCandles (env : Nat → WsOutcome) : SideSwapRun :=
  runAttempts env 0 0 5

/-! ### Cache layer (localStorage) -/

/-- The JSON value stored under a cache key: the candle list and the
`Date.now()` timestamp recorded by `cacheBars`. -/
structure CacheEntry where
  bars : List Candle
  timestamp : Int
deriving DecidableEq

/-- The relevant slice of `localStorage`: an association of string keys
to parsed cache entries. -/
abbrev CacheStore := List (String × CacheEntry)

/-- `localStorage.getItem` (plus `JSON.parse`) on the modelled store. -/
def getItem (st : CacheStore) (key : String) : Option CacheEntry :=
  (st.find? (fun p => p.1 == key)).map (fun p => p.2)

/-- `localStorage.removeItem` on the modelled store. -/
def removeItem (st : CacheStore) (key : String) : CacheStore :=
  st.filter (fun p => !(p.1 == key))

/-- The `TimePeriod` union type of the source: "1m" | "30m" | "1h" | "1d". -/
inductive TimePeriod where
  | p1m
  | p30m
  | p1h
  | p1d

/-- The string the period interpolates to in the cache key. -/
def TimePeriod.code : TimePeriod → String
  | .p1m => "1m"
  | .p30m => "30m"
  | .p1h => "1h"
  | .p1d => "1d"

/-- The cache key template of `cacheBars` / `getCachedBars`. -/
def cacheKeyFor (symbol : String) (period : TimePeriod) : String :=
  "btc_chart_" ++ symbol ++ "_" ++ period.code

/-- `getCachedBars` (`BTCRealtimeChart.tsx` lines 60–79): a missing key
yields `[]`; an entry with `Date.now() - timestamp > 60*60*1000` is
removed and yields `[]`; otherwise the stored bars are returned. The
second component is the store after the call. -/
def getCachedBars (st : CacheStore) (symbol : String) (period : TimePeriod) (now : Int) :
    List Candle × CacheStore :=
  match getItem st (cacheKeyFor symbol period) with
  | none => ([], st)
  | some entry =>
      if now - entry.timestamp > 60 * 60 * 1000 then
        ([], removeItem st (cacheKeyFor symbol period))
      else (entry.bars, st)

/-! ### Live-stream reconnection backoff -/

/-- Events a WebSocket connection delivers to the reconnect logic:
`opened` is a successful `onopen`, `closed` is an `onclose`. -/
inductive ConnEvent where
  | opened
  | closed

/-- The delay computed in the `onclose` handlers of `connectBinance` /
`connectSideSwap` (`BTCRealtimeChart.tsx` lines 1160–1164 and 1091–1096)
and `connect` (`part_005` lines 848–853): `attempt` has already been
incremented when `Math.min(15000, 500 * 2 ** attempt)` is evaluated. -/
def onCloseDelay (attempt : Nat) : Nat :=
  min 15000 (500 * 2 ^ attempt)

/-- The reconnect state machine: `onopen` resets the attempt counter to
0; `onclose` increments it and schedules a reconnect after
`onCloseDelay` of the incremented counter. Returns the final attempt
counter and the list of scheduled delays in order. -/
def runEvents : Nat → List ConnEvent → Nat × List Nat
  | a, [] => (a, [])
  | _, .opened :: rest => runEvents 0 rest
  | a, .closed :: rest =>
      let r := runEvents (a + 1) rest
      (r.1, onCloseDelay (a + 1) :: r.2)

/-! ### Viewport-driven older-edge backfill -/

/-- The range computation of `loadMoreHistory` (`BTCRealtimeChart.tsx`
lines 523–535): no fetch when there is no oldest bound or the requested
time is not older than it; otherwise the start is
`Math.max(from - 7*24*60*60, 0) * 1000` and the end is `oldest * 1000`
(milliseconds); if the start lies before `Date.now() - 30*24*60*60*1000`
the whole fetch is skipped. Returns the `(startTime, endTime)` pair
passed to `fetchHistory`, or `none` when no fetch is issued. -/
def loadMoreHistoryRange (oldest : Option Int) (reqFrom nowMs : Int) : Option (Int × Int) :=
  match oldest with
  | none => none
  | some o =>
      if reqFrom ≥ o then none
      else
        let newStartTime := max (reqFrom - 7 * 24 * 60 * 60) 0 * 1000
        let endTime := o * 1000
        let thirtyDaysAgo := nowMs - 30 * 24 * 60 * 60 * 1000
        if newStartTime < thirtyDaysAgo then none
        else some (newStartTime, endTime)

/-- The state update of `loadMoreHistory` after the fetch (lines 537–593):
an empty fetch leaves the history unchanged; otherwise the fetched bars
are merged with `mergeBars`, filtered by `validBar`, and the filtered
list replaces the history when non-empty (its first element becoming the
new oldest bound), else the history is unchanged. -/
def afterBackfill (cur newBars : List Candle) : List Candle :=
  if newBars.isEmpty then cur
  else
    let merged := mergeBars newBars cur
    if merged.isEmpty then cur
    else
      let valid := merged.filter validBar
      if valid.isEmpty then cur else valid


/-! ### Claim theorems about validation and fail-soft fetching -/

theorem normalizeCandle_eq_some {k : KlineRow} {c : Candle}
    (h : normalizeCandle k = some c) :
    finiteOHLC c = true ∧ 0 < c.time := by
  rw [normalizeCandle] at h
  split at h
  · exact absurd h (by simp)
  · next hcond =>
      simp only [Bool.or_eq_true, Bool.not_eq_true', decide_eq_true_eq, not_or,
        Bool.not_eq_false] at hcond
      have hc : c = ⟨Int.fdiv k.openTime 1000, k.o, k.h, k.l, k.c⟩ := by
        injection h with h'
        exact h'.symm
      subst hc
      refine ⟨?_, ?_⟩
      · simp only [finiteOHLC]
        simp [hcond.1.1.1.1, hcond.1.1.1.2, hcond.1.1.2, hcond.1.2]
      · exact Int.not_le.mp hcond.2

theorem normalizeCandle_eq_none {k : KlineRow}
    (h : finiteOHLC ⟨Int.fdiv k.openTime 1000, k.o, k.h, k.l, k.c⟩ = false ∨
      Int.fdiv k.openTime 1000 ≤ 0) :
    normalizeCandle k = none := by
  rw [normalizeCandle]
  split
  · rfl
  · next hcond =>
      simp only [Bool.or_eq_true, Bool.not_eq_true', decide_eq_true_eq, not_or,
        Bool.not_eq_false] at hcond
      exfalso
      cases h with
      | inl hf =>
          simp only [finiteOHLC] at hf
          simp [hcond.1.1.1.1, hcond.1.1.1.2, hcond.1.1.2, hcond.1.2] at hf
      | inr ht => exact hcond.2 ht

/-- A fetched record whose finite prices violate `low ≤ open`: open 1,
high 2, low 5, close 2, openTime 100000 ms (so time 100 s). -/
def ohlcViolatingRow : KlineRow := ⟨100000, .num 1, .num 2, .num 5, .num 2⟩

/-- The candle the fetch pipeline produces for `ohlcViolatingRow`. -/
def ohlcViolatingCandle : Candle := ⟨100, .num 1, .num 2, .num 5, .num 2⟩

/-- C4 counterexample. The claim states every candle admitted into the
resulting series satisfies `low ≤ open ≤ high` and `low ≤ close ≤ high`.
But the fetch pipeline admits a record with `low = 5 > open = 1`:
`normalizeCandle` (and every other filter in the source) checks only
finiteness and `time > 0`, never the OHLC ordering, and the admitted
candle then enters the merged series. -/
theorem fetch_admits_ohlc_range_violation :
    fetchHistory (FetchOutcome.rows [ohlcViolatingRow]) = [ohlcViolatingCandle] ∧
    mergeBars [ohlcViolatingCandle] [] = [ohlcViolatingCandle] ∧
    JSNum.jsle ohlcViolatingCandle.low ohlcViolatingCandle.open_ = false ∧
    validBar ohlcViolatingCandle = true := by
  refine ⟨by decide, by decide, by decide, by decide⟩

/-- C4 amended. Every candle admitted by a fetch (through
`normalizeCandle`) or by the `validBars` filter has all four prices
finite and `time > 0`, and a record failing that check is dropped whole
by `normalizeCandle`; the OHLC range inequality `low ≤ open,close ≤ high`
is not part of the filter. -/
theorem candle_filter_checks_finite_and_positive_time :
    (∀ (rows : List KlineRow) (c : Candle), c ∈ fetchHistory (FetchOutcome.rows rows) →
      finiteOHLC c = true ∧ 0 < c.time) ∧
    (∀ (bars : List Candle) (c : Candle), c ∈ bars.filter validBar →
      finiteOHLC c = true ∧ 0 < c.time) ∧
    (∀ k : KlineRow,
      (finiteOHLC ⟨Int.fdiv k.openTime 1000, k.o, k.h, k.l, k.c⟩ = false ∨
        Int.fdiv k.openTime 1000 ≤ 0) →
      normalizeCandle k = none) := by
  refine ⟨?_, ?_, fun k h => normalizeCandle_eq_none h⟩
  · intro rows c hc
    simp only [fetchHistory, fetchHistoryTry, List.mem_filterMap] at hc
    obtain ⟨k, _, hk⟩ := hc
    exact normalizeCandle_eq_some hk
  · intro bars c hc
    rw [List.mem_filter] at hc
    have hv := hc.2
    rw [validBar, Bool.and_eq_true, decide_eq_true_eq] at hv
    exact ⟨hv.2, hv.1⟩

/-- C4 witness: a finite, positive-time record row produces a candle in
the fetch result, and the amended theorem yields its guarantees there. -/
theorem candle_filter_checks_finite_and_positive_time_witness :
    ((⟨3, .num 7, .num 9, .num 6, .num 8⟩ : Candle) ∈
      fetchHistory (FetchOutcome.rows [⟨3000, .num 7, .num 9, .num 6, .num 8⟩])) ∧
    finiteOHLC ⟨3, .num 7, .num 9, .num 6, .num 8⟩ = true ∧
    (0 : Int) < (⟨3, .num 7, .num 9, .num 6, .num 8⟩ : Candle).time :=
  ⟨by decide,
    candle_filter_checks_finite_and_positive_time.1
      [⟨3000, .num 7, .num 9, .num 6, .num 8⟩] _ (by decide)⟩

/-- A Binance kline row with open time 0 ms and finite prices. -/
def timeZeroRow : KlineRow := ⟨0, .num 1, .num 2, .num 1, .num 1⟩

/-- The candle `fetchBinanceCandles` builds from `timeZeroRow`: its time
is 0. -/
def timeZeroCandle : Candle := ⟨0, .num 1, .num 2, .num 1, .num 1⟩

/-- C5. Evaluation at the failing input: a fetched record with `time = 0`
and finite prices passes the finiteness-only filter of
`fetchBinanceCandles`, and on a cache miss `loadInitialData` returns the
unfiltered fetch result — which the loading effect stores as the series —
even though the function's own `validBars` filter (second component)
would have dropped the record, and even though the `part_005` variant
`normalizeCandle` correctly rejects the same row. So the `time = 0`
record does appear in the resulting series, contrary to the claim. -/
theorem fetched_time_zero_record_reaches_series :
    fetchBinanceCandles (FetchOutcome.rows [timeZeroRow]) = [timeZeroCandle] ∧
    (loadInitialData [] (fetchBinanceCandles (FetchOutcome.rows [timeZeroRow]))).1 =
      [timeZeroCandle] ∧
    (loadInitialData [] (fetchBinanceCandles (FetchOutcome.rows [timeZeroRow]))).2 = [] ∧
    timeZeroCandle.time = 0 ∧
    normalizeCandle timeZeroRow = none := by
  refine ⟨by decide, by decide, by decide, rfl, by decide⟩

/-- C8. Fails-soft fetch: for every outcome of a history fetch the
operation resolves (never rejects across its boundary), and each failure
mode — network error, timeout, non-2xx status, malformed (non-array)
payload — resolves to the empty list; likewise every failure mode of the
SideSwap `doRequest` round trip resolves to the empty list. -/
theorem fetch_fails_soft :
    (∀ o : FetchOutcome, ∃ bars, fetchBinanceCandlesObs o = Except.ok bars) ∧
    fetchBinanceCandlesObs FetchOutcome.networkError = Except.ok [] ∧
    fetchBinanceCandlesObs FetchOutcome.timeout = Except.ok [] ∧
    fetchBinanceCandlesObs FetchOutcome.httpNotOk = Except.ok [] ∧
    fetchBinanceCandlesObs FetchOutcome.nonArray = Except.ok [] ∧
    fetchHistory FetchOutcome.networkError = [] ∧
    fetchHistory FetchOutcome.timeout = [] ∧
    fetchHistory FetchOutcome.httpNotOk = [] ∧
    fetchHistory FetchOutcome.nonArray = [] ∧
    doRequest WsOutcome.timeout = [] ∧
    doRequest WsOutcome.wsError = [] ∧
    doRequest WsOutcome.connectError = [] ∧
    doRequest WsOutcome.marketNotFound = [] ∧
    doRequest WsOutcome.badPayload = [] := by
  refine ⟨?_, rfl, rfl, rfl, rfl, rfl, rfl, rfl, rfl, rfl, rfl, rfl, rfl, rfl⟩
  intro o
  cases o with
  | networkError => exact ⟨[], rfl⟩
  | timeout => exact ⟨[], rfl⟩
  | httpNotOk => exact ⟨[], rfl⟩
  | nonArray => exact ⟨[], rfl⟩
  | rows data => exact ⟨_, rfl⟩

/-! ### Claim theorems about reconnection backoff -/

/-- C6 counterexample. The claim states the delay "resets to the base
delay" (500 ms) after one successful connection. Running the handlers on
the event sequence close, open, close shows the delay scheduled after the
successful connection is 1000 ms, not 500 ms: the attempt counter is
incremented to 1 before `min(15000, 500 * 2 ** attempt)` is evaluated, so
the base delay of 500 ms is never scheduled. -/
theorem backoff_after_reconnect_is_1000_not_500 :
    (runEvents 0 [ConnEvent.closed, ConnEvent.opened, ConnEvent.closed]).2 = [1000, 1000] ∧
    (1000 : Nat) ≠ 500 := by
  refine ⟨by decide, by decide⟩

/-- C6 amended. Every scheduled reconnect delay satisfies
`1000 ≤ delay ≤ 15000` (so the 15000 ms cap holds for any number of
consecutive disconnects); a successful open resets the attempt counter to
0; and because the counter is incremented before the delay is computed,
the first delay after a successful connection is
`min(15000, 500 * 2^1) = 1000` ms — the smallest delay the code can
schedule — rather than the 500 ms base. -/
theorem backoff_bound_and_reset :
    (∀ (a : Nat) (evs : List ConnEvent) (d : Nat),
        d ∈ (runEvents a evs).2 → 1000 ≤ d ∧ d ≤ 15000) ∧
    (∀ (a : Nat) (evs : List ConnEvent),
        runEvents a (ConnEvent.opened :: evs) = runEvents 0 evs) ∧
    (∀ (a : Nat) (evs : List ConnEvent),
        (runEvents a (ConnEvent.opened :: ConnEvent.closed :: evs)).2.head? = some 1000) := by
  refine ⟨?_, ?_, ?_⟩
  · intro a evs
    induction evs generalizing a with
    | nil => intro d hd; simp [runEvents] at hd
    | cons e rest ih =>
        intro d hd
        cases e with
        | opened =>
            rw [runEvents] at hd
            exact ih 0 d hd
        | closed =>
            rw [runEvents] at hd
            simp only [List.mem_cons] at hd
            cases hd with
            | inl hd =>
                subst hd
                constructor
                · refine le_min (by norm_num) ?_
                  have hpow : 1 ≤ 2 ^ a := Nat.one_le_two_pow
                  calc (1000 : Nat) = 1000 * 1 := by norm_num
                    _ ≤ 1000 * 2 ^ a := Nat.mul_le_mul_left 1000 hpow
                    _ = 500 * 2 ^ (a + 1) := by rw [pow_succ]; ring
                · exact min_le_left _ _
            | inr hd => exact ih (a + 1) d hd
  · intro a evs
    rw [runEvents]
  · intro a evs
    rw [runEvents, runEvents]
    simp [onCloseDelay]

/-- C6 witness: the bound instantiated at the singleton disconnect run,
whose only scheduled delay is 1000 ms. -/
theorem backoff_bound_and_reset_witness :
    (1000 ∈ (runEvents 0 [ConnEvent.closed]).2) ∧ (1000 ≤ 1000 ∧ 1000 ≤ 15000) :=
  ⟨by decide, backoff_bound_and_reset.1 0 [ConnEvent.closed] 1000 (by decide)⟩

/-! ### Claim theorems about the cache layer -/

theorem getItem_removeItem (st : CacheStore) (key : String) :
    getItem (removeItem st key) key = none := by
  have : (removeItem st key).find? (fun p => p.1 == key) = none := by
    rw [List.find?_eq_none]
    intro p hp
    rw [removeItem, List.mem_filter] at hp
    simp only [Bool.not_eq_true'] at hp
    simp [hp.2]
  simp [getItem, this]

/-- C7. Cache freshness: a read of a present entry whose age
`now - fetchedAt` exceeds one hour (3600000 ms) yields the empty result
and removes the entry (a subsequent lookup of the key misses); an entry
within the window is returned exactly as stored, store unchanged. -/
theorem getCachedBars_freshness :
    ∀ (st : CacheStore) (symbol : String) (period : TimePeriod) (now : Int)
      (entry : CacheEntry),
      getItem st (cacheKeyFor symbol period) = some entry →
      ((now - entry.timestamp > 60 * 60 * 1000 →
          getCachedBars st symbol period now =
            ([], removeItem st (cacheKeyFor symbol period)) ∧
          getItem (getCachedBars st symbol period now).2 (cacheKeyFor symbol period) = none) ∧
       (now - entry.timestamp ≤ 60 * 60 * 1000 →
          getCachedBars st symbol period now = (entry.bars, st))) := by
  intro st symbol period now entry hentry
  constructor
  · intro hstale
    have hcall : getCachedBars st symbol period now =
        ([], removeItem st (cacheKeyFor symbol period)) := by
      simp only [getCachedBars, hentry]
      rw [if_pos hstale]
    refine ⟨hcall, ?_⟩
    rw [hcall]
    exact getItem_removeItem st (cacheKeyFor symbol period)
  · intro hfresh
    simp only [getCachedBars, hentry]
    have hlt : ¬(now - entry.timestamp > 60 * 60 * 1000) := not_lt.mpr hfresh
    rw [if_neg hlt]

/-- C7 witness: a store holding one hour-and-a-millisecond-old entry for
the key of ("btcusdt", 1h); the read at `now = 3600001` misses and
removes the entry. -/
theorem getCachedBars_freshness_witness :
    getCachedBars [(cacheKeyFor "btcusdt" TimePeriod.p1h, ⟨[], 0⟩)]
        "btcusdt" TimePeriod.p1h 3600001 = ([], []) ∧
    getItem
      (getCachedBars [(cacheKeyFor "btcusdt" TimePeriod.p1h, ⟨[], 0⟩)]
        "btcusdt" TimePeriod.p1h 3600001).2 (cacheKeyFor "btcusdt" TimePeriod.p1h) = none := by
  have h := (getCachedBars_freshness
      [(cacheKeyFor "btcusdt" TimePeriod.p1h, ⟨[], 0⟩)]
      "btcusdt" TimePeriod.p1h 3600001 ⟨[], 0⟩ (by decide)).1 (by norm_num)
  exact ⟨h.1.trans (by decide), h.2⟩

/-! ### Claim theorems about older-edge backfill -/

theorem head_time_le_of_sorted {l : List Candle} (hs : l.Sorted timeLE) {x : Candle}
    (hx : x ∈ l) : ∃ hd, l.head? = some hd ∧ hd.time ≤ x.time := by
  cases l with
  | nil => cases hx
  | cons a tl =>
      refine ⟨a, rfl, ?_⟩
      rw [List.mem_cons] at hx
      cases hx with
      | inl h => rw [h]
      | inr h => exact (List.pairwise_cons.mp hs).1 x h

/-- C9 counterexample. With oldest loaded time `T0 = 1700000000`, a
request at `T0 - 500` and `Date.now() = T0 * 1000`, the claim's scenario
says the fetched range is `[T0 - 7d, T0)`; the code computes the start
from the REQUESTED time, `(T0 - 500 - 7d) * 1000 = 1699394700000`, which
differs from `(T0 - 7d) * 1000 = 1699395200000`. -/
theorem loadMoreHistory_range_offset_by_request :
    loadMoreHistoryRange (some 1700000000) 1699999500 1700000000000 =
      some (1699394700000, 1700000000000) ∧
    (1699394700000 : Int) ≠ (1700000000 - 7 * 24 * 60 * 60) * 1000 := by
  refine ⟨by decide, by decide⟩

/-- C9 amended. On an older-edge event with requested time `from`: with
no oldest bound, or `from` not older than the oldest bound, no fetch is
issued; when `max(from - 7d, 0) * 1000` falls before the 30-day horizon
`now - 30d` the fetch is skipped entirely (the range is not clamped);
otherwise the fetched range is `[max(from - 7d, 0) * 1000, oldest *
1000)` — computed from the REQUESTED time, so in the scenario with
request `T0 - 500` it is `[T0 - 500 - 7d, T0)`, not `[T0 - 7d, T0)`.
Every issued range starts at or after the 30-day horizon, so no data
older than 30 days before now is requested. After a non-empty fetch the
merged-and-validated list replaces the series, and its first element —
the new oldest bound — is older than `from` whenever the merge contains a
valid candle older than `from`. -/
theorem loadMoreHistory_spec :
    (∀ reqFrom nowMs : Int, loadMoreHistoryRange none reqFrom nowMs = none) ∧
    (∀ o reqFrom nowMs : Int, o ≤ reqFrom →
        loadMoreHistoryRange (some o) reqFrom nowMs = none) ∧
    (∀ o reqFrom nowMs : Int, reqFrom < o →
        max (reqFrom - 7 * 24 * 60 * 60) 0 * 1000 < nowMs - 30 * 24 * 60 * 60 * 1000 →
        loadMoreHistoryRange (some o) reqFrom nowMs = none) ∧
    (∀ o reqFrom nowMs : Int, reqFrom < o →
        nowMs - 30 * 24 * 60 * 60 * 1000 ≤ max (reqFrom - 7 * 24 * 60 * 60) 0 * 1000 →
        loadMoreHistoryRange (some o) reqFrom nowMs =
          some (max (reqFrom - 7 * 24 * 60 * 60) 0 * 1000, o * 1000)) ∧
    (∀ o reqFrom nowMs s e : Int,
        loadMoreHistoryRange (some o) reqFrom nowMs = some (s, e) →
        nowMs - 30 * 24 * 60 * 60 * 1000 ≤ s ∧ e = o * 1000) ∧
    (∀ (cur newBars : List Candle) (c : Candle) (reqFrom : Int),
        newBars ≠ [] → c ∈ mergeBars newBars cur → validBar c = true →
        c.time < reqFrom →
        ∃ hd, (afterBackfill cur newBars).head? = some hd ∧ hd.time < reqFrom) := by
  refine ⟨?_, ?_, ?_, ?_, ?_, ?_⟩
  · intro reqFrom nowMs
    rfl
  · intro o reqFrom nowMs h
    simp only [loadMoreHistoryRange]
    rw [if_pos h]
  · intro o reqFrom nowMs hlt hhor
    simp only [loadMoreHistoryRange]
    rw [if_neg (not_le.mpr hlt), if_pos hhor]
  · intro o reqFrom nowMs hlt hhor
    simp only [loadMoreHistoryRange]
    rw [if_neg (not_le.mpr hlt), if_neg (not_lt.mpr hhor)]
  · intro o reqFrom nowMs s e h
    simp only [loadMoreHistoryRange] at h
    by_cases hge : reqFrom ≥ o
    · rw [if_pos hge] at h
      exact absurd h (by simp)
    · rw [if_neg hge] at h
      by_cases hhor : max (reqFrom - 7 * 24 * 60 * 60) 0 * 1000 <
          nowMs - 30 * 24 * 60 * 60 * 1000
      · rw [if_pos hhor] at h
        exact absurd h (by simp)
      · rw [if_neg hhor] at h
        have hse : s = max (reqFrom - 7 * 24 * 60 * 60) 0 * 1000 ∧ e = o * 1000 := by
          have h' : (max (reqFrom - 7 * 24 * 60 * 60) 0 * 1000, o * 1000) =
              ((s, e) : Int × Int) := by
            injection h
          exact ⟨(congrArg Prod.fst h').symm, (congrArg Prod.snd h').symm⟩
        refine ⟨?_, hse.2⟩
        rw [hse.1]
        exact not_lt.mp hhor
  · intro cur newBars c reqFrom hne hc hv hlt
    have hmergene : mergeBars newBars cur ≠ [] := List.ne_nil_of_mem hc
    have hcv : c ∈ (mergeBars newBars cur).filter validBar :=
      List.mem_filter.mpr ⟨hc, hv⟩
    have hvne : (mergeBars newBars cur).filter validBar ≠ [] := List.ne_nil_of_mem hcv
    have hres : afterBackfill cur newBars = (mergeBars newBars cur).filter validBar := by
      simp only [afterBackfill]
      rw [if_neg (by simpa [List.isEmpty_iff] using hne)]
      rw [if_neg (by simpa [List.isEmpty_iff] using hmergene)]
      rw [if_neg (by simpa [List.isEmpty_iff] using hvne)]
    have hsorted : ((mergeBars newBars cur).filter validBar).Sorted timeLE :=
      List.Pairwise.sublist (List.filter_sublist _) (sorted_le_mergeBars newBars cur)
    obtain ⟨hd, hhd, hle⟩ := head_time_le_of_sorted hsorted hcv
    rw [hres]
    exact ⟨hd, hhd, lt_of_le_of_lt hle hlt⟩

/-- C9 witness: the guard conjunct at a request not older than the bound,
and the fetch-range conjunct at a request 500 s older than the oldest
bound of 2000000, with the 7-day lookback applied to the requested time. -/
theorem loadMoreHistory_spec_witness :
    loadMoreHistoryRange (some 100) 200 0 = none ∧
    loadMoreHistoryRange (some 2000000) 1999500 2000000000 =
      some (1394700000, 2000000000) := by
  constructor
  · exact loadMoreHistory_spec.2.1 100 200 0 (by norm_num)
  · have h := loadMoreHistory_spec.2.2.2.1 2000000 1999500 2000000000
      (by norm_num) (by decide)
    rw [h]
    decide

/-! ### Claim theorems about the bounded SideSwap retry loop -/

theorem runAttempts_length_bounds (env : Nat → WsOutcome) :
    ∀ fuel attempt reqIdx : Nat,
      (runAttempts env attempt reqIdx fuel).delays.length ≤ fuel ∧
      (runAttempts env attempt reqIdx fuel).requests ≤ 2 * fuel := by
  intro fuel
  induction fuel with
  | zero => intro a r; simp [runAttempts]
  | succ n ih =>
      intro a r
      simp only [runAttempts]
      split_ifs with h1 h2
      · refine ⟨by simp, ?_⟩
        dsimp only
        omega
      · refine ⟨by simp, ?_⟩
        dsimp only
        omega
      · obtain ⟨ihd, ihr⟩ := ih (a + 1) (r + 2)
        refine ⟨?_, ?_⟩
        · dsimp only
          simpa using Nat.succ_le_succ ihd
        · dsimp only
          omega

theorem runAttempts_delays_le (env : Nat → WsOutcome) :
    ∀ (fuel attempt reqIdx d : Nat),
      d ∈ (runAttempts env attempt reqIdx fuel).delays → d ≤ 4000 := by
  intro fuel
  induction fuel with
  | zero => intro a r d hd; simp [runAttempts] at hd
  | succ n ih =>
      intro a r d hd
      simp only [runAttempts] at hd
      split_ifs at hd
      · simp at hd
      · simp at hd
      · simp only [List.mem_cons] at hd
        cases hd with
        | inl h => rw [h, sideswapBackoffMs]; exact min_le_left _ _
        | inr h => exact ih (a + 1) (r + 2) d h

theorem runAttempts_all_fail (env : Nat → WsOutcome)
    (hfail : ∀ i, doRequest (env i) = []) :
    ∀ fuel attempt reqIdx : Nat,
      runAttempts env attempt reqIdx fuel =
        ⟨[], (List.range fuel).map (fun i => sideswapBackoffMs (attempt + i)),
          2 * fuel⟩ := by
  intro fuel
  induction fuel with
  | zero => intro a r; simp [runAttempts]
  | succ n ih =>
      intro a r
      simp only [runAttempts, hfail]
      rw [if_neg (by simp), if_neg (by simp)]
      rw [ih (a + 1) (r + 2)]
      dsimp only
      congr 1
      · rw [List.range_succ_eq_map, List.map_cons, List.map_map]
        refine congrArg₂ List.cons (by rw [Nat.add_zero]) ?_
        apply List.map_congr_left
        intro i _
        simp only [Function.comp_apply]
        congr 1
        omega
      · omega

/-- C10. The SideSwap daily-candle fetch performs at most 5 attempts and
issues at most 10 WebSocket requests; each attempt tries the configured
pair first and the swapped pair second; each request's failure modes —
including the 5-second response timeout — resolve to the empty list;
every inter-attempt backoff is `min(4000, 500 * 2^attempt)` (never more
than 4000 ms); and when every request fails the loop terminates with the
empty list after exactly the delays 500, 1000, 2000, 4000, 4000 ms. -/
theorem sideswap_fetch_bounded_retries :
    (∀ env : Nat → WsOutcome,
        (fetchSideSwapDailyCandles env).delays.length ≤ 5 ∧
        (fetchSideSwapDailyCandles env).requests ≤ 10) ∧
    (∀ (env : Nat → WsOutcome) (d : Nat),
        d ∈ (fetchSideSwapDailyCandles env).delays → d ≤ 4000) ∧
    (∀ env : Nat → WsOutcome, (∀ i, doRequest (env i) = []) →
        fetchSideSwapDailyCandles env = ⟨[], [500, 1000, 2000, 4000, 4000], 10⟩) ∧
    doRequest WsOutcome.timeout = [] ∧
    (∀ (env : Nat → WsOutcome) (rows : List SideSwapRow),
        doRequest (env 0) = [] → env 1 = WsOutcome.chartData rows →
        0 < (sortByTime (rows.map sideswapRowToCandle)).length →
        fetchSideSwapDailyCandles env =
          ⟨sortByTime (rows.map sideswapRowToCandle), [], 2⟩) := by
  refine ⟨?_, ?_, ?_, rfl, ?_⟩
  · intro env
    exact runAttempts_length_bounds env 5 0 0
  · intro env d hd
    exact runAttempts_delays_le env 5 0 0 d hd
  · intro env hfail
    rw [fetchSideSwapDailyCandles, runAttempts_all_fail env hfail 5 0 0]
    refine congrArg₂ (fun ds rq => SideSwapRun.mk [] ds rq) (by decide) (by norm_num)
  · intro env rows hp hsw hlen
    rw [fetchSideSwapDailyCandles]
    show runAttempts env 0 0 (4 + 1) = _
    simp only [runAttempts]
    rw [if_neg (by rw [hp]; simp)]
    rw [if_pos (by rw [hsw]; simpa [doRequest] using hlen)]
    rw [hsw]
    rfl

/-- C10 witness: the all-fail conjunct applied to the environment in
which every request times out. -/
theorem sideswap_fetch_bounded_retries_witness :
    fetchSideSwapDailyCandles (fun _ => WsOutcome.timeout) =
      ⟨[], [500, 1000, 2000, 4000, 4000], 10⟩ :=
  sideswap_fetch_bounded_retries.2.2.1 (fun _ => WsOutcome.timeout) (fun _ => rfl)
